import Mathlib

/-!
Verification development for the event-catalog governance action.

The repository is a TypeScript GitHub Action (src/index.ts, src/lib/ai.ts,
plus the schema-review orchestrator whose code appears at the end of
src/lib/ai.ts).  The pure logic is embedded shallowly below:

* text is modelled as `String` or `List Char` (one JS UTF-16 string maps to
  one Lean string; whitespace is modelled by the ASCII whitespace characters
  recognised by the JS regex class `\s` and by `trim`);
* JS numbers holding review scores are modelled as `Int` (the zod schema and
  the spec require scores in the integer range 0..100);
* each external boundary (octokit content fetch, model call, base64 decode,
  URI encoding) is a function-valued parameter, so the deterministic code
  around it is translated exactly while the network stays abstract;
* effectful statements of `run` and of the change-selection gate are
  translated to explicit effect traces (`RunEffect`), preserving order.
-/

/-- Whitespace test used to model the JS regex class `\s` and the JS
`trim` / `trimStart` / `trimEnd` functions, restricted to the ASCII
whitespace characters (space, tab, newline, carriage return, vertical
tab, form feed). -/
def isWS (c : Char) : Bool :=
  c = ' ' || c = '\t' || c = '\n' || c = '\r' || c = Char.ofNat 11 || c = Char.ofNat 12

/-- Model of `String.prototype.trimStart`. -/
def trimStartL (l : List Char) : List Char := l.dropWhile isWS

/-- Model of `String.prototype.trimEnd`. -/
def trimEndL (l : List Char) : List Char := (l.reverse.dropWhile isWS).reverse

/-- Model of `String.prototype.trim` (trailing trim then leading trim,
which is the order the source composes them in: `line.trimEnd()` first,
then `.trim()` / `.trimStart()` on the result). -/
def trimL (l : List Char) : List Char := trimStartL (trimEndL l)

/-- Model of `content.split('\n')` from src/index.ts line 112: splitting an
empty string gives one empty line, and a trailing newline produces a final
empty line, exactly as in JS. -/
def splitLines : List Char → List (List Char)
  | [] => [[]]
  | c :: rest =>
    match splitLines rest with
    | [] => [[]]
    | l :: ls => if c = '\n' then [] :: l :: ls else (c :: l) :: ls

/-- Digit character class `[0-9]` of the list-marker regex. -/
def isDigitChar (c : Char) : Bool := decide ('0' ≤ c) && decide (c ≤ '9')

/-- Roman-numeral character class `[ivxlcdm]` of the list-marker regex,
with the regex `i` flag spelled out as the explicit upper-case variants. -/
def isRomanChar (c : Char) : Bool :=
  c = 'i' || c = 'v' || c = 'x' || c = 'l' || c = 'c' || c = 'd' || c = 'm' ||
  c = 'I' || c = 'V' || c = 'X' || c = 'L' || c = 'C' || c = 'D' || c = 'M'

/-- The literal dot `\.` that closes the numbered and roman-numbered
marker alternatives: accepts a remaining input starting with a dot and
returns the input after the dot. -/
def afterDot (u : List Char) : Option (List Char) :=
  match u with
  | c :: rest2 => if c = '.' then some rest2 else none
  | [] => none

/-- The trailing `\s+` of the list-marker regex, applied to the remainder
returned by the marker alternation: at least one whitespace character must
follow the marker. -/
def wsAfter : Option (List Char) → Bool
  | some (c :: _) => isWS c
  | _ => false

/-- Alternation `([*\-+]|o|[0-9]+\.|[ivxlcdm]+\.)` of the list-marker regex
in src/index.ts line 121 (flag `i`), applied after the leading `\s*`.  On a
match it returns the remainder of the line after the marker; the `o`
alternative accepts `o` and `O`, and the digit and roman alternatives use
maximal munch, which agrees with regex backtracking here because the two
character classes do not contain the terminating dot. -/
def matchMarkerRest : List Char → Option (List Char)
  | [] => none
  | c :: rest =>
    if c = '*' ∨ c = '-' ∨ c = '+' then some rest
    else if c = 'o' ∨ c = 'O' then some rest
    else if isDigitChar c then afterDot (List.dropWhile isDigitChar (c :: rest))
    else if isRomanChar c then afterDot (List.dropWhile isRomanChar (c :: rest))
    else none

/-- Model of `listMarkerRegex.test(line)` for the anchored regex
`/^\s*([*\-+]|o|[0-9]+\.|[ivxlcdm]+\.)\s+/i` from src/index.ts line 121:
optional leading whitespace, one marker alternative, then at least one
whitespace character. -/
def markerTest (l : List Char) : Bool :=
  wsAfter (matchMarkerRest (l.dropWhile isWS))

/-- Per-line step of the `lines.forEach` loop in src/index.ts lines
114..133, including the `\n` the source appends after every emitted line.
The source first trims the trailing whitespace, keeps a blank line exactly
as it was, passes a line matching the list-marker regex through, and
otherwise strips the leading whitespace and prefixes a dash-space bullet. -/
def processLine (line : List Char) : List Char :=
  if trimL line = [] then line ++ ['\n']
  else if markerTest (trimEndL line) then trimEndL line ++ ['\n']
  else '-' :: ' ' :: (trimL line ++ ['\n'])

/-- Accumulated output of the `lines.forEach` loop of
`formatSectionAsBulletedList` (src/index.ts lines 112..133). -/
def normalizeLines (content : List Char) : List Char :=
  ((splitLines content).map processLine).flatten

/-- Body of `formatSectionAsBulletedList` after the section title: the
non-empty branch runs the line loop and appends the dead-code placeholder
when no line had content, the empty branch emits the fixed placeholder
(src/index.ts lines 111..139). -/
def sectionBody (title content : List Char) : List Char :=
  if trimL content = [] then
    "No ".data ++ title.map Char.toLower ++ " provided.\n".data
  else
    normalizeLines content ++
      (if (splitLines content).any (fun l => !(trimL l).isEmpty) then []
       else "No ".data ++ title.map Char.toLower ++
            " provided (content was empty or whitespace only).\n".data)

/-- Model of `formatSectionAsBulletedList` from src/index.ts lines
109..141: section title line, processed body, and a final blank line. -/
def formatSectionAsBulletedList (title content : List Char) : List Char :=
  "### ".data ++ title ++ '\n' :: (sectionBody title content ++ ['\n'])

/-- Single-quote character, built from its code point so that the source
apostrophes of the TypeScript string literals can be reproduced. -/
def sglQuote : String := String.singleton (Char.ofNat 39)

/-- Structured review object produced by the model call, matching
`AiResponseSchema` in src/lib/ai.ts and the `AiReview` interface in the
github module.  The zod schema constrains `score` to the range 0..100; the
score is modelled as an integer per the specification. -/
structure AiReview where
  executiveSummary : String
  detailedAnalysis : String
  recommendations : String
  score : Int
deriving DecidableEq

/-- One reviewed (or attempted) file, matching the `ReviewedFile`
interface: the optional fields model the `aiReview?` / `aiError?`
properties. -/
structure ReviewedFile where
  filePath : String
  oldFileContent : String
  newFileContent : String
  aiReview : Option AiReview
  aiError : Option String
deriving DecidableEq

/-- Aggregate result of `performSchemaReview`, matching
`SchemaReviewResult` in the schema-review module. -/
structure SchemaReviewResult where
  reviewedFiles : List ReviewedFile
  overallLowestScore : Int
  lowScoreFile : String
deriving DecidableEq

/-- The review prompt template built in `reviewSingleFile` (schema-review
module), with path, old content and new content embedded verbatim. -/
def promptForAI (filePath oldFileContent newFileContent : String) : String :=
  "Review the following changes to the file `" ++ filePath ++
  "`:\n\nOld version (from base branch):\n```\n" ++ oldFileContent ++
  "\n```\n\nNew version (from this PR):\n```\n" ++ newFileContent ++
  "\n```\n\nPlease analyze these changes for potential issues, especially breaking changes if this is a schema or configuration file. Provide your assessment."

/-- Model of `reviewSingleFile`: fetch both revisions, build the prompt,
call the model, and record either the review or the error message.  The
`fetch` parameter stands for `getFileContentAtRef` with the octokit handle
and owner/repo pair curried away (it takes path then ref); `ai` stands for
`askAI`, returning either a validated review or the thrown error message.
Logging via `core.info` / `core.error` is not modelled. -/
def reviewSingleFile (fetch : String → String → String)
    (ai : String → Except String AiReview)
    (filePath baseSha headSha : String) : ReviewedFile :=
  match ai (promptForAI filePath (fetch filePath baseSha) (fetch filePath headSha)) with
  | Except.ok r =>
    { filePath := filePath, oldFileContent := fetch filePath baseSha,
      newFileContent := fetch filePath headSha, aiReview := some r, aiError := none }
  | Except.error e =>
    { filePath := filePath, oldFileContent := fetch filePath baseSha,
      newFileContent := fetch filePath headSha, aiReview := none, aiError := some e }

/-- State-passing translation of the `for` loop of `performSchemaReview`
(schema-review module): accumulated outcome list, running lowest score and
its file path. -/
def reviewLoop (fetch : String → String → String)
    (ai : String → Except String AiReview) (baseSha headSha : String) :
    List String → List ReviewedFile → Int → String → SchemaReviewResult
  | [], files, low, lowFile =>
    { reviewedFiles := files, overallLowestScore := low, lowScoreFile := lowFile }
  | p :: ps, files, low, lowFile =>
    let e := reviewSingleFile fetch ai p baseSha headSha
    match e.aiReview with
    | some r =>
      if r.score < low then
        reviewLoop fetch ai baseSha headSha ps (files ++ [e]) r.score p
      else
        reviewLoop fetch ai baseSha headSha ps (files ++ [e]) low lowFile
    | none => reviewLoop fetch ai baseSha headSha ps (files ++ [e]) low lowFile

/-- Model of `performSchemaReview`: the loop starts from an empty outcome
list, a lowest score of 100 and an empty lowest-score file path. -/
def performSchemaReview (fetch : String → String → String)
    (ai : String → Except String AiReview)
    (changedFilePaths : List String) (baseSha headSha : String) :
    SchemaReviewResult :=
  reviewLoop fetch ai baseSha headSha changedFilePaths [] 100 ""

/-- Scores of the outcomes that carry an assessment, in outcome order. -/
def outcomeScores (res : SchemaReviewResult) : List Int :=
  res.reviewedFiles.filterMap (fun f => f.aiReview.map AiReview.score)

/-- Scores the orchestrator will see for a given input path list, in input
order. -/
def scoresOf (fetch : String → String → String)
    (ai : String → Except String AiReview) (baseSha headSha : String)
    (ps : List String) : List Int :=
  ps.filterMap (fun p => (reviewSingleFile fetch ai p baseSha headSha).aiReview.map AiReview.score)

/-- Octokit `repos.getContent` response shape as consumed by
`getFileContentAtRef`: a file object whose `content` field may be missing
or empty (`none` / `some ""` both model a falsy `content`), a directory
(array) response, or any other shape. -/
inductive ContentResponse where
  | file (content : Option String) (encoding : String)
  | directory
  | other
deriving DecidableEq

/-- Model of `getFileContentAtRef` from src/index.ts lines 144..166.  The
`getContent` parameter stands for the octokit call with owner/repo curried
away (`Except.error msg` models a thrown error with message `msg`), and
`decode64` stands for `Buffer.from(content, 'base64').toString('utf-8')`.
The function is total: every failure is converted to a placeholder
string. -/
def getFileContentAtRef
    (getContent : String → String → Except String ContentResponse)
    (decode64 : String → String) (path ref : String) : String :=
  match getContent path ref with
  | Except.ok (ContentResponse.file (some c) enc) =>
    if c = "" then "Could not retrieve content for this file."
    else if enc = "base64" then decode64 c else c
  | Except.ok (ContentResponse.file none _) =>
    "Could not retrieve content for this file."
  | Except.ok ContentResponse.directory =>
    "This is a directory, content not displayed."
  | Except.ok ContentResponse.other =>
    "Could not retrieve content for this file."
  | Except.error msg => "Could not retrieve content (Error: " ++ (msg ++ ")")

/-- Severity badge strings of `generateCommentBody` (src/index.ts lines
249..255). -/
def dangerSpan : String := "<span style=\"color:red;\">🚨 Danger</span> "

/-- Severity badge for the middle score band. -/
def warningSpan : String := "<span style=\"color:orange;\">⚠️ Warning</span> "

/-- Severity badge for the safe score band. -/
def safeSpan : String := "<span style=\"color:green;\">✅ Safe</span> "

/-- The `scorePrefix` selection of `generateCommentBody` (src/index.ts
lines 248..255): strictly below 25 is danger, strictly below 75 is
warning, everything else is safe. -/
def severitySpan (score : Int) : String :=
  if score < 25 then dangerSpan
  else if score < 75 then warningSpan
  else safeSpan

/-- The per-file diff link of `generateCommentBody` (line 244); `encode`
stands for `encodeURIComponent`. -/
def fileDiffLink (encode : String → String) (owner repo : String)
    (pullRequestNumber : Int) (path : String) : String :=
  "https://github.com/" ++ owner ++ "/" ++ repo ++ "/pull/" ++
  toString pullRequestNumber ++ "/files#" ++ encode path

/-- String-level wrapper of the list-normalization transform, as invoked
by `generateCommentBody` on the detailed analysis and the
recommendations. -/
def formatSectionString (title content : String) : String :=
  String.mk (formatSectionAsBulletedList title.data content.data)

/-- Per-outcome block of `generateCommentBody` (src/index.ts lines
242..284). -/
def renderReviewedFile (encode : String → String) (owner repo : String)
    (pullRequestNumber : Int) (f : ReviewedFile) : String :=
  let link := fileDiffLink encode owner repo pullRequestNumber f.filePath
  match f.aiReview with
  | some r =>
    "### **Score:** " ++ severitySpan r.score ++ toString r.score ++ "/100\n\n" ++
    "<sub>File: [" ++ f.filePath ++ "](" ++ link ++ ")</sub>\n\n" ++
    "**Executive Summary:**\n" ++ r.executiveSummary ++ "\n\n" ++
    formatSectionString "Detailed Analysis" r.detailedAnalysis ++
    formatSectionString "Recommendations" r.recommendations
  | none =>
    "<sub>File: [" ++ f.filePath ++ "](" ++ link ++ ")</sub>\n\n" ++
    "##### AI-Powered Review\n" ++
    (match f.aiError with
     | some e => "*AI review could not be generated for this file. Error: " ++ e ++ "*\n\n"
     | none => "*AI review data not available for this file.*\n\n")

/-- Comment header of `generateCommentBody` (lines 239..240). -/
def commentHeader (catalogDirectory : Option String) : String :=
  "# EventCatalog: Schema Review\n\n" ++ "The following files " ++
  (match catalogDirectory with
   | some d => "in " ++ sglQuote ++ d ++ sglQuote ++ " "
   | none => "") ++
  "were modified in this pull request:\n\n"

/-- Model of `generateCommentBody` from src/index.ts lines 229..286. -/
def generateCommentBody (encode : String → String) (owner repo : String)
    (pullRequestNumber : Int) (reviewedFiles : List ReviewedFile)
    (catalogDirectory : Option String) : String :=
  commentHeader catalogDirectory ++
  String.join (reviewedFiles.map (renderReviewedFile encode owner repo pullRequestNumber))

/-- Observable effects of a run, in emission order: posted comments,
action outputs, `core.setFailed` calls, `core.info` logs, and a marker
recording that `performSchemaReview` (and with it the model reviewer) was
invoked on a path list. -/
inductive RunEffect where
  | comment (body : String)
  | output (name value : String)
  | failed (msg : String)
  | info (msg : String)
  | review (paths : List String)
deriving DecidableEq

/-- Pull-request payload fields of the event context consumed by `run`. -/
structure PullRequestPayload where
  number : Int
  headSha : String
  baseSha : String
deriving DecidableEq

/-- Event context fields consumed by `run` and by
`initialChecksAndGetChangedFiles`; `commentId` models the (typically
absent) `context.payload.comment?.id`. -/
structure ActionContext where
  eventName : String
  pullRequest : Option PullRequestPayload
  commentId : Option Int
deriving DecidableEq

/-- Model of `getChangedFiles` (src/index.ts lines 169..183): the listed
pull-request file paths, kept only when they start with the catalog
directory prefix if one is configured.  `listFiles` stands for the octokit
`pulls.listFiles` response, already mapped to file names. -/
def getChangedFiles (listFiles : List String)
    (catalogDirectory : Option String) : List String :=
  match catalogDirectory with
  | some d => listFiles.filter (fun f => f.startsWith d)
  | none => listFiles

/-- The fixed no-files comment body (src/index.ts line 220). -/
def noFilesBody : String :=
  "## EventCatalog: Detected File Changes\n\nNo files were changed in this pull request."

/-- Result shape of `initialChecksAndGetChangedFiles`. -/
structure InitialChecksResult where
  changedFilePaths : List String
  shouldContinue : Bool
deriving DecidableEq

/-- Model of `initialChecksAndGetChangedFiles` (src/index.ts lines
190..226), returning the result together with the trace of effects it
emits. -/
def initialChecksAndGetChangedFiles (listFiles : List String)
    (ctx : ActionContext) (catalogDirectory : Option String) :
    InitialChecksResult × List RunEffect :=
  if ctx.eventName ≠ "pull_request" then
    (⟨[], false⟩, [RunEffect.failed "This action can only be run on pull_request events."])
  else
    match ctx.pullRequest with
    | none => (⟨[], false⟩, [RunEffect.failed "Pull request payload is missing."])
    | some _ =>
      let changedFilePaths := getChangedFiles listFiles catalogDirectory
      if changedFilePaths = [] then
        match catalogDirectory with
        | some d =>
          (⟨[], false⟩,
           [RunEffect.info ("No changed files found within the specified directory: " ++
             d ++ ". Action will not comment.")])
        | none =>
          (⟨[], false⟩,
           [RunEffect.info "No files changed in this pull request.",
            RunEffect.comment noFilesBody])
      else (⟨changedFilePaths, true⟩, [])

/-- The threshold-failure message of `run` (src/index.ts line 72), with
the apostrophes of the template literal built from `sglQuote`. -/
def failMessage (lowScoreFile : String) (score threshold : Int) : String :=
  ("Action failed: File " ++ sglQuote) ++
  (lowScoreFile ++
    ((sglQuote ++ " received an AI review score of ") ++
      (toString score ++
        (", which is below the threshold of " ++ (toString threshold ++ ".")))))

/-- The `comment-url` output value set by `run` (src/index.ts line 68);
an absent `context.payload.comment` renders as the JS string
`undefined`. -/
def commentUrl (owner repo : String) (issueNumber : Int)
    (commentId : Option Int) : String :=
  "https://github.com/" ++ owner ++ "/" ++ repo ++ "/pull/" ++
  toString issueNumber ++ "#issuecomment-" ++
  (match commentId with | some i => toString i | none => "undefined")

/-- Effect trace of the tail of `run` (src/index.ts lines 61..73): post
the summary comment, set the `comment-url` output, then fail the action
exactly when the lowest score is strictly below the threshold. -/
def runTail (review : SchemaReviewResult) (failureThreshold : Int)
    (body url : String) : List RunEffect :=
  [RunEffect.comment body, RunEffect.output "comment-url" url] ++
  (if review.overallLowestScore < failureThreshold then
     [RunEffect.failed (failMessage review.lowScoreFile review.overallLowestScore failureThreshold)]
   else [])

/-- Effect trace of `run` (src/index.ts lines 10..80) from the point the
inputs have been validated: initial checks and change selection, then, only
when they signal continuation, the schema review (marked by
`RunEffect.review`), comment generation, posting, output and the threshold
gate. -/
def runModel (listFiles : List String) (ctx : ActionContext)
    (catalogDirectory : Option String) (fetch : String → String → String)
    (ai : String → Except String AiReview) (encode : String → String)
    (owner repo : String) (failureThreshold : Int) : List RunEffect :=
  let r := initialChecksAndGetChangedFiles listFiles ctx catalogDirectory
  if r.1.shouldContinue then
    match ctx.pullRequest with
    | some pr =>
      let review := performSchemaReview fetch ai r.1.changedFilePaths pr.baseSha pr.headSha
      let body := generateCommentBody encode owner repo pr.number review.reviewedFiles catalogDirectory
      r.2 ++ RunEffect.review r.1.changedFilePaths ::
        runTail review failureThreshold body (commentUrl owner repo pr.number ctx.commentId)
    | none => r.2
  else r.2

/-- Predicate selecting an outcome whose assessment score equals a given
value. -/
def minScorePred (L : Int) : ReviewedFile → Bool :=
  fun f => f.aiReview.any (fun r => r.score == L)

/-- Marker token shapes of the specification: one of the symbols `*`, `-`,
`+`, the letter `o` (case-insensitive), a numeral followed by a dot, or a
roman numeral followed by a dot (case-insensitive, the character-class
reading `[ivxlcdm]+` of the source). -/
def isMarkerToken (tok : List Char) : Prop :=
  tok = ['*'] ∨ tok = ['-'] ∨ tok = ['+'] ∨ tok = ['o'] ∨ tok = ['O'] ∨
  (∃ ds, ds ≠ [] ∧ (∀ d ∈ ds, isDigitChar d = true) ∧ tok = ds ++ ['.']) ∨
  (∃ rs, rs ≠ [] ∧ (∀ rc ∈ rs, isRomanChar rc = true) ∧ tok = rs ++ ['.'])

/-- Recognized-list-marker predicate stated from the specification words:
the line consists of optional leading whitespace, a marker token, and then
a whitespace character (the source comments the markers as `followed by a
space`) followed by the rest of the line. -/
def specMarker (l : List Char) : Prop :=
  ∃ ws tok c rest, l = ws ++ tok ++ c :: rest ∧ (∀ w ∈ ws, isWS w = true) ∧
    isMarkerToken tok ∧ isWS c = true

/-- Constant content fetcher used for concrete evaluations of the
orchestrator. -/
def wFetch : String → String → String := fun _ _ => "content"

/-- Model oracle that accepts every prompt with a fixed review of score
80. -/
def wAi80 : String → Except String AiReview :=
  fun _ => Except.ok
    { executiveSummary := "s", detailedAnalysis := "d",
      recommendations := "r", score := 80 }

/-- Model oracle that throws on the review prompt of file `a` and accepts
every other prompt with score 80. -/
def wAiFailA : String → Except String AiReview :=
  fun s =>
    if s = promptForAI "a" "content" "content" then Except.error "AI failed"
    else Except.ok
      { executiveSummary := "s", detailedAnalysis := "d",
        recommendations := "r", score := 80 }

/-! Auxiliary lemmas about whitespace trimming and line splitting. -/

theorem dropWhile_self (p : Char → Bool) (l : List Char) :
    (l.dropWhile p).dropWhile p = l.dropWhile p := by
  induction l with
  | nil => rfl
  | cons a l ih =>
    by_cases h : p a = true
    · simpa [List.dropWhile_cons_of_pos h] using ih
    · simp [List.dropWhile_cons_of_neg h]

theorem mem_of_mem_dropWhile (p : Char → Bool) (l : List Char) (a : Char)
    (h : a ∈ l.dropWhile p) : a ∈ l := by
  have := List.takeWhile_append_dropWhile p l
  rw [← this]
  exact List.mem_append_right _ h

theorem mem_dropWhile_of_neg (p : Char → Bool) (l : List Char) (a : Char)
    (ha : a ∈ l) (hp : p a = false) : a ∈ l.dropWhile p := by
  induction l with
  | nil => cases ha
  | cons b l ih =>
    by_cases hb : p b = true
    · rw [List.dropWhile_cons_of_pos hb]
      rcases List.mem_cons.1 ha with rfl | h
      · rw [hp] at hb; cases hb
      · exact ih h
    · rw [List.dropWhile_cons_of_neg hb]
      exact ha

theorem dropWhile_append_all (p : Char → Bool) (ws t : List Char)
    (h : ∀ a ∈ ws, p a = true) : (ws ++ t).dropWhile p = t.dropWhile p := by
  induction ws with
  | nil => rfl
  | cons a ws ih =>
    rw [List.cons_append, List.dropWhile_cons_of_pos (h a (List.mem_cons_self a ws))]
    exact ih (fun b hb => h b (List.mem_cons_of_mem a hb))

theorem head_dropWhile_false (p : Char → Bool) (l : List Char) (c : Char)
    (t : List Char) (h : l.dropWhile p = c :: t) : p c = false := by
  have := List.head?_dropWhile_not p l
  rw [h] at this
  exact this

theorem trimEndL_idem (l : List Char) : trimEndL (trimEndL l) = trimEndL l := by
  unfold trimEndL
  rw [List.reverse_reverse, dropWhile_self]

theorem trimL_eq_nil_iff (l : List Char) :
    trimL l = [] ↔ ∀ c ∈ l, isWS c = true := by
  constructor
  · intro h c hc
    by_contra hne
    have hf : isWS c = false := by
      cases hx : isWS c
      · rfl
      · exact absurd hx hne
    have h1 : c ∈ l.reverse.dropWhile isWS :=
      mem_dropWhile_of_neg isWS l.reverse c (List.mem_reverse.2 hc) hf
    have h2 : c ∈ trimEndL l := List.mem_reverse.2 h1
    have h3 : c ∈ trimL l := mem_dropWhile_of_neg isWS (trimEndL l) c h2 hf
    rw [h] at h3
    cases h3
  · intro h
    have h1 : trimEndL l = [] := by
      unfold trimEndL
      rw [List.dropWhile_eq_nil_iff.2 (fun a ha => h a (List.mem_reverse.1 ha))]
      rfl
    unfold trimL
    rw [h1]
    rfl

theorem mem_trimEndL (l : List Char) (c : Char) (h : c ∈ trimEndL l) : c ∈ l := by
  unfold trimEndL at h
  exact List.mem_reverse.1 (mem_of_mem_dropWhile isWS l.reverse c (List.mem_reverse.1 h))

theorem splitLines_ne_nil (x : List Char) : splitLines x ≠ [] := by
  cases x with
  | nil => simp [splitLines]
  | cons c rest =>
    simp only [splitLines]
    cases h : splitLines rest with
    | nil => simp
    | cons l ls => by_cases hc : c = '\n' <;> simp [hc]

theorem no_newline_in_splitLines (x : List Char) :
    ∀ l ∈ splitLines x, '\n' ∉ l := by
  induction x with
  | nil =>
    intro l hl
    simp [splitLines] at hl
    simp [hl]
  | cons c rest ih =>
    intro l hl
    rcases hsp : splitLines rest with _ | ⟨l0, ls⟩
    · exact absurd hsp (splitLines_ne_nil rest)
    · simp only [splitLines, hsp] at hl
      by_cases hc : c = '\n'
      · simp [hc] at hl
        rcases hl with rfl | hl
        · simp
        · exact ih l (by rw [hsp]; exact List.mem_cons.2 hl)
      · simp [hc] at hl
        rcases hl with rfl | hl
        · intro hmem
          rcases List.mem_cons.1 hmem with rfl | h
          · exact hc rfl
          · exact ih l0 (by rw [hsp]; exact List.mem_cons_self l0 ls) h
        · exact ih l (by rw [hsp]; exact List.mem_cons_of_mem l0 hl)

theorem splitLines_append_newline (p rest : List Char) (hp : '\n' ∉ p) :
    splitLines (p ++ '\n' :: rest) = p :: splitLines rest := by
  induction p with
  | nil =>
    simp only [List.nil_append, splitLines]
    rcases hsp : splitLines rest with _ | ⟨l0, ls⟩
    · exact absurd hsp (splitLines_ne_nil rest)
    · simp
  | cons c p ih =>
    have hc : c ≠ '\n' := fun h => hp (h ▸ List.mem_cons_self c p)
    have hp2 : '\n' ∉ p := fun h => hp (List.mem_cons_of_mem c h)
    simp only [List.cons_append, splitLines, List.append_eq]
    rw [ih hp2]
    simp [hc]

theorem mem_splitLines_of_mem (x : List Char) (c : Char) (hc : c ∈ x)
    (hne : c ≠ '\n') : ∃ l ∈ splitLines x, c ∈ l := by
  induction x with
  | nil => cases hc
  | cons a rest ih =>
    rcases hsp : splitLines rest with _ | ⟨l0, ls⟩
    · exact absurd hsp (splitLines_ne_nil rest)
    · by_cases ha : a = '\n'
      · rcases List.mem_cons.1 hc with rfl | h
        · exact absurd ha hne
        · rcases ih h with ⟨l, hl, hcl⟩
          refine ⟨l, ?_, hcl⟩
          simp only [splitLines, hsp, ha, if_pos rfl]
          rw [hsp] at hl
          exact List.mem_cons_of_mem _ hl
      · rcases List.mem_cons.1 hc with rfl | h
        · refine ⟨c :: l0, ?_, List.mem_cons_self c l0⟩
          simp [splitLines, hsp, ha]
        · rcases ih h with ⟨l, hl, hcl⟩
          rw [hsp] at hl
          rcases List.mem_cons.1 hl with rfl | hl2
          · refine ⟨a :: l, ?_, List.mem_cons_of_mem a hcl⟩
            simp [splitLines, hsp, ha]
          · refine ⟨l, ?_, hcl⟩
            simp only [splitLines, hsp, if_neg ha]
            exact List.mem_cons_of_mem _ hl2

theorem exists_nonblank_line (x : List Char) (h : trimL x ≠ []) :
    ∃ l ∈ splitLines x, trimL l ≠ [] := by
  have h1 : ¬ ∀ c ∈ x, isWS c = true := fun hall => h ((trimL_eq_nil_iff x).2 hall)
  push_neg at h1
  rcases h1 with ⟨c, hc, hcw⟩
  have hcf : isWS c = false := by
    cases hx : isWS c
    · rfl
    · exact absurd hx hcw
  have hne : c ≠ '\n' := by
    intro h2
    rw [h2] at hcf
    simp [isWS] at hcf
  rcases mem_splitLines_of_mem x c hc hne with ⟨l, hl, hcl⟩
  refine ⟨l, hl, fun h2 => ?_⟩
  have := (trimL_eq_nil_iff l).1 h2 c hcl
  rw [hcf] at this
  cases this

/-! Auxiliary lemmas about the running minimum of the review loop. -/

theorem foldl_min_le_init (S : List Int) : ∀ a : Int, S.foldl min a ≤ a := by
  induction S with
  | nil => intro a; simp
  | cons s S ih =>
    intro a
    calc S.foldl min (min a s) ≤ min a s := ih (min a s)
    _ ≤ a := min_le_left a s

theorem foldl_min_le_mem (S : List Int) :
    ∀ a x : Int, x ∈ S → S.foldl min a ≤ x := by
  induction S with
  | nil => intro a x hx; cases hx
  | cons s S ih =>
    intro a x hx
    rcases List.mem_cons.1 hx with rfl | hx
    · calc S.foldl min (min a x) ≤ min a x := foldl_min_le_init S (min a x)
      _ ≤ x := min_le_right a x
    · exact ih (min a s) x hx

theorem foldl_min_mem_or_init (S : List Int) :
    ∀ a : Int, S.foldl min a = a ∨ S.foldl min a ∈ S := by
  induction S with
  | nil => intro a; left; rfl
  | cons s S ih =>
    intro a
    rcases ih (min a s) with h | h
    · rw [List.foldl_cons, h]
      rcases le_total a s with hle | hle
      · left; exact min_eq_left hle
      · right; rw [min_eq_right hle]; exact List.mem_cons_self s S
    · right
      rw [List.foldl_cons]
      exact List.mem_cons_of_mem s h

theorem foldl_min_of_all_ge (S : List Int) :
    ∀ a : Int, (∀ x ∈ S, a ≤ x) → S.foldl min a = a := by
  induction S with
  | nil => intro a _; rfl
  | cons s S ih =>
    intro a h
    rw [List.foldl_cons, min_eq_left (h s (List.mem_cons_self s S))]
    exact ih a (fun x hx => h x (List.mem_cons_of_mem s hx))

/-! Characterization of the schema-review loop. -/

theorem reviewSingleFile_filePath (fetch : String → String → String)
    (ai : String → Except String AiReview) (p b h : String) :
    (reviewSingleFile fetch ai p b h).filePath = p := by
  unfold reviewSingleFile
  cases ai (promptForAI p (fetch p b) (fetch p h)) <;> rfl

theorem reviewSingleFile_ok (fetch : String → String → String)
    (ai : String → Except String AiReview) (p b h : String) (r : AiReview)
    (hA : ai (promptForAI p (fetch p b) (fetch p h)) = Except.ok r) :
    (reviewSingleFile fetch ai p b h).aiReview = some r ∧
    (reviewSingleFile fetch ai p b h).aiError = none := by
  unfold reviewSingleFile
  rw [hA]
  exact ⟨rfl, rfl⟩

theorem reviewSingleFile_err (fetch : String → String → String)
    (ai : String → Except String AiReview) (p b h : String) (e : String)
    (hA : ai (promptForAI p (fetch p b) (fetch p h)) = Except.error e) :
    (reviewSingleFile fetch ai p b h).aiReview = none ∧
    (reviewSingleFile fetch ai p b h).aiError = some e := by
  unfold reviewSingleFile
  rw [hA]
  exact ⟨rfl, rfl⟩

theorem aiReview_inv (fetch : String → String → String)
    (ai : String → Except String AiReview) (p b h : String) (r : AiReview)
    (hR : (reviewSingleFile fetch ai p b h).aiReview = some r) :
    ai (promptForAI p (fetch p b) (fetch p h)) = Except.ok r := by
  rcases hA : ai (promptForAI p (fetch p b) (fetch p h)) with e | r2
  · rcases reviewSingleFile_err fetch ai p b h e hA with ⟨h1, _⟩
    rw [h1] at hR
    cases hR
  · rcases reviewSingleFile_ok fetch ai p b h r2 hA with ⟨h1, _⟩
    rw [h1] at hR
    cases hR
    rfl

theorem reviewLoop_files (fetch : String → String → String)
    (ai : String → Except String AiReview) (b h : String) :
    ∀ (ps : List String) (files : List ReviewedFile) (low : Int) (lowFile : String),
      (reviewLoop fetch ai b h ps files low lowFile).reviewedFiles =
        files ++ ps.map (fun p => reviewSingleFile fetch ai p b h) := by
  intro ps
  induction ps with
  | nil => intro files low lowFile; simp [reviewLoop]
  | cons p ps ih =>
    intro files low lowFile
    simp only [reviewLoop]
    rcases hE : (reviewSingleFile fetch ai p b h).aiReview with _ | r
    · simp only [hE, ih, List.map_cons, List.append_assoc, List.singleton_append]
    · simp only [hE]
      by_cases hlt : r.score < low
      · simp only [if_pos hlt, ih, List.map_cons, List.append_assoc, List.singleton_append]
      · simp only [if_neg hlt, ih, List.map_cons, List.append_assoc, List.singleton_append]

theorem scoresOf_cons (fetch : String → String → String)
    (ai : String → Except String AiReview) (b h : String) (p : String)
    (ps : List String) :
    scoresOf fetch ai b h (p :: ps) =
      (match (reviewSingleFile fetch ai p b h).aiReview with
       | some r => r.score :: scoresOf fetch ai b h ps
       | none => scoresOf fetch ai b h ps) := by
  unfold scoresOf
  rcases hE : (reviewSingleFile fetch ai p b h).aiReview with _ | r <;>
    simp [List.filterMap_cons, hE]

theorem reviewLoop_lowest (fetch : String → String → String)
    (ai : String → Except String AiReview) (b h : String) :
    ∀ (ps : List String) (files : List ReviewedFile) (low : Int) (lowFile : String),
      (reviewLoop fetch ai b h ps files low lowFile).overallLowestScore =
        (scoresOf fetch ai b h ps).foldl min low := by
  intro ps
  induction ps with
  | nil => intro files low lowFile; simp [reviewLoop, scoresOf]
  | cons p ps ih =>
    intro files low lowFile
    simp only [reviewLoop]
    rw [scoresOf_cons]
    rcases hE : (reviewSingleFile fetch ai p b h).aiReview with _ | r
    · simp only [ih]
    · simp only [List.foldl_cons]
      by_cases hlt : r.score < low
      · rw [if_pos hlt, ih, min_eq_right (le_of_lt hlt)]
      · rw [if_neg hlt, ih, min_eq_left (not_lt.1 hlt)]

theorem reviewLoop_lowFile (fetch : String → String → String)
    (ai : String → Except String AiReview) (b h : String) :
    ∀ (ps : List String) (files : List ReviewedFile) (low : Int)
      (lowFile : String) (L : Int),
      L = (scoresOf fetch ai b h ps).foldl min low →
      (L < low →
        ∃ p0, ps.find? (fun p => minScorePred L (reviewSingleFile fetch ai p b h)) = some p0 ∧
          (reviewLoop fetch ai b h ps files low lowFile).lowScoreFile = p0) ∧
      (¬ L < low →
        (reviewLoop fetch ai b h ps files low lowFile).lowScoreFile = lowFile) := by
  intro ps
  induction ps with
  | nil =>
    intro files low lowFile L hL
    have hLlow : L = low := by simpa [scoresOf] using hL
    constructor
    · intro hlt
      rw [hLlow] at hlt
      exact absurd hlt (lt_irrefl low)
    · intro _
      simp [reviewLoop]
  | cons p ps ih =>
    intro files low lowFile L hL
    rw [scoresOf_cons] at hL
    simp only [reviewLoop]
    rcases hE : (reviewSingleFile fetch ai p b h).aiReview with _ | r
    · rw [hE] at hL
      have hpred : minScorePred L (reviewSingleFile fetch ai p b h) = false := by
        simp [minScorePred, hE]
      constructor
      · intro hlt
        rcases (ih (files ++ [reviewSingleFile fetch ai p b h]) low lowFile L hL).1 hlt with
          ⟨p0, hfind, hres⟩
        exact ⟨p0, by rw [List.find?_cons_of_neg _ (by simp [hpred])]; exact hfind, hres⟩
      · intro hnlt
        exact (ih (files ++ [reviewSingleFile fetch ai p b h]) low lowFile L hL).2 hnlt
    · rw [hE] at hL
      simp only [List.foldl_cons] at hL
      dsimp only
      by_cases hlt : r.score < low
      · rw [if_pos hlt]
        rw [min_eq_right (le_of_lt hlt)] at hL
        have hLle : L ≤ r.score := by
          rw [hL]; exact foldl_min_le_init _ _
        have hLlow : L < low := lt_of_le_of_lt hLle hlt
        constructor
        · intro _
          by_cases hlt2 : L < r.score
          · rcases (ih (files ++ [reviewSingleFile fetch ai p b h]) r.score p L hL).1 hlt2 with
              ⟨p0, hfind, hres⟩
            refine ⟨p0, ?_, hres⟩
            have hpred : minScorePred L (reviewSingleFile fetch ai p b h) = false := by
              simp only [minScorePred, hE, Option.any_some]
              simp [beq_iff_eq]
              exact fun hc => absurd hc.symm (ne_of_lt hlt2)
            rw [List.find?_cons_of_neg _ (by simp [hpred])]
            exact hfind
          · have hEq : L = r.score := le_antisymm hLle (not_lt.1 hlt2)
            have hres := (ih (files ++ [reviewSingleFile fetch ai p b h]) r.score p L hL).2 hlt2
            refine ⟨p, ?_, hres⟩
            have hpred : minScorePred L (reviewSingleFile fetch ai p b h) = true := by
              simp [minScorePred, hE, beq_iff_eq, hEq]
            exact List.find?_cons_of_pos _ hpred
        · intro hnlt
          exact absurd hLlow hnlt
      · rw [if_neg hlt]
        rw [min_eq_left (not_lt.1 hlt)] at hL
        constructor
        · intro hLlow
          rcases (ih (files ++ [reviewSingleFile fetch ai p b h]) low lowFile L hL).1 hLlow with
            ⟨p0, hfind, hres⟩
          refine ⟨p0, ?_, hres⟩
          have hpred : minScorePred L (reviewSingleFile fetch ai p b h) = false := by
            simp only [minScorePred, hE, Option.any_some]
            simp [beq_iff_eq]
            intro hc
            rw [hc] at hlt
            exact hlt hLlow
          rw [List.find?_cons_of_neg _ (by simp [hpred])]
          exact hfind
        · intro hnlt
          exact (ih (files ++ [reviewSingleFile fetch ai p b h]) low lowFile L hL).2 hnlt

/-! Claim theorems about the review orchestrator. -/

/-- C1: after `performSchemaReview` over any list of file paths, the
returned `overallLowestScore` equals the minimum assessment score over all
outcomes that have an assessment (it is a member of that score list and a
lower bound of it), and equals 100 when no outcome has an assessment;
outcomes without an assessment never affect the minimum.  The hypothesis
records that the model oracle only returns validated scores in 0..100, as
enforced by the zod response schema. -/
theorem spec_C1_lowest_score_is_minimum (fetch : String → String → String)
    (ai : String → Except String AiReview) (paths : List String) (b h : String)
    (hval : ∀ p r, ai p = Except.ok r → 0 ≤ r.score ∧ r.score ≤ 100) :
    (outcomeScores (performSchemaReview fetch ai paths b h) = [] →
      (performSchemaReview fetch ai paths b h).overallLowestScore = 100) ∧
    (∀ s ∈ outcomeScores (performSchemaReview fetch ai paths b h),
      (performSchemaReview fetch ai paths b h).overallLowestScore ≤ s) ∧
    (outcomeScores (performSchemaReview fetch ai paths b h) ≠ [] →
      (performSchemaReview fetch ai paths b h).overallLowestScore ∈
        outcomeScores (performSchemaReview fetch ai paths b h)) := by
  have hfiles : (performSchemaReview fetch ai paths b h).reviewedFiles =
      paths.map (fun p => reviewSingleFile fetch ai p b h) := by
    unfold performSchemaReview
    rw [reviewLoop_files]
    rfl
  have hsc : outcomeScores (performSchemaReview fetch ai paths b h) =
      scoresOf fetch ai b h paths := by
    unfold outcomeScores scoresOf
    rw [hfiles, List.filterMap_map]
    rfl
  have hlow : (performSchemaReview fetch ai paths b h).overallLowestScore =
      (scoresOf fetch ai b h paths).foldl min 100 := by
    unfold performSchemaReview
    rw [reviewLoop_lowest]
  have hbound : ∀ s ∈ scoresOf fetch ai b h paths, s ≤ 100 := by
    intro s hs
    unfold scoresOf at hs
    rcases List.mem_filterMap.1 hs with ⟨p, _, hsome⟩
    rcases Option.map_eq_some'.1 hsome with ⟨r, hr, hscore⟩
    rw [← hscore]
    exact (hval _ r (aiReview_inv fetch ai p b h r hr)).2
  refine ⟨?_, ?_, ?_⟩
  · intro hnil
    rw [hsc] at hnil
    rw [hlow, hnil]
    rfl
  · intro s hs
    rw [hsc] at hs
    rw [hlow]
    exact foldl_min_le_mem _ _ _ hs
  · intro hne
    rw [hsc] at hne
    rw [hlow, hsc]
    rcases foldl_min_mem_or_init (scoresOf fetch ai b h paths) 100 with heq | hmem
    · rcases hS : scoresOf fetch ai b h paths with _ | ⟨s0, S⟩
      · exact absurd hS hne
      · have hmem0 : s0 ∈ scoresOf fetch ai b h paths := by
          rw [hS]; exact List.mem_cons_self s0 S
        have h1 : (s0 :: S).foldl min 100 ≤ s0 := by
          rw [← hS]; exact foldl_min_le_mem _ _ _ hmem0
        have h2 : s0 ≤ 100 := hbound s0 hmem0
        have heq2 : (s0 :: S).foldl min 100 = 100 := by rw [← hS]; exact heq
        have h3 : s0 = 100 := le_antisymm h2 (heq2 ▸ h1)
        rw [heq2, ← h3]
        exact List.mem_cons_self s0 S
    · exact hmem

/-- C1 witness: a concrete run with one reviewed file of score 80 has a
non-empty assessment-score list containing the overall lowest score. -/
theorem spec_C1_lowest_score_is_minimum_witness :
    (∀ p r, wAi80 p = Except.ok r → 0 ≤ r.score ∧ r.score ≤ 100) ∧
    outcomeScores (performSchemaReview wFetch wAi80 ["a"] "bb" "hh") ≠ [] ∧
    (performSchemaReview wFetch wAi80 ["a"] "bb" "hh").overallLowestScore ∈
      outcomeScores (performSchemaReview wFetch wAi80 ["a"] "bb" "hh") := by
  have hval : ∀ p r, wAi80 p = Except.ok r → 0 ≤ r.score ∧ r.score ≤ 100 := by
    intro p r hr
    have hrr : r = (⟨"s", "d", "r", 80⟩ : AiReview) := by
      simp [wAi80] at hr
      exact hr.symm
    rw [hrr]
    exact ⟨by decide, by decide⟩
  exact ⟨hval, by decide,
    (spec_C1_lowest_score_is_minimum wFetch wAi80 ["a"] "bb" "hh" hval).2.2 (by decide)⟩

/-- C6: the orchestrator processes the paths strictly in the given order
and appends exactly one outcome per path (the outcome list is the map of
the single-file review over the input paths, so it has the same length and
order and a failure never aborts the remaining files), carrying the
assessment on reviewer success or the error message as the failure reason
on reviewer failure. -/
theorem spec_C6_one_outcome_per_path (fetch : String → String → String)
    (ai : String → Except String AiReview) (paths : List String) (b h : String) :
    (performSchemaReview fetch ai paths b h).reviewedFiles =
      paths.map (fun p => reviewSingleFile fetch ai p b h) ∧
    (performSchemaReview fetch ai paths b h).reviewedFiles.length = paths.length ∧
    ∀ p, (reviewSingleFile fetch ai p b h).filePath = p ∧
      (∀ r, ai (promptForAI p (fetch p b) (fetch p h)) = Except.ok r →
        (reviewSingleFile fetch ai p b h).aiReview = some r ∧
        (reviewSingleFile fetch ai p b h).aiError = none) ∧
      (∀ e, ai (promptForAI p (fetch p b) (fetch p h)) = Except.error e →
        (reviewSingleFile fetch ai p b h).aiReview = none ∧
        (reviewSingleFile fetch ai p b h).aiError = some e) := by
  have hfiles : (performSchemaReview fetch ai paths b h).reviewedFiles =
      paths.map (fun p => reviewSingleFile fetch ai p b h) := by
    unfold performSchemaReview
    rw [reviewLoop_files]
    rfl
  refine ⟨hfiles, ?_, ?_⟩
  · rw [hfiles, List.length_map]
  · intro p
    exact ⟨reviewSingleFile_filePath fetch ai p b h,
      fun r hr => reviewSingleFile_ok fetch ai p b h r hr,
      fun e he => reviewSingleFile_err fetch ai p b h e he⟩

/-- C6 witness: concrete two-file run where the outcome list mirrors the
input order and the first file carries its assessment. -/
theorem spec_C6_one_outcome_per_path_witness :
    (performSchemaReview wFetch wAi80 ["a", "b"] "bb" "hh").reviewedFiles.length =
      (["a", "b"] : List String).length ∧
    (reviewSingleFile wFetch wAi80 "a" "bb" "hh").aiReview =
      some (⟨"s", "d", "r", 80⟩ : AiReview) := by
  obtain ⟨_, h2, h3⟩ := spec_C6_one_outcome_per_path wFetch wAi80 ["a", "b"] "bb" "hh"
  exact ⟨h2, ((h3 "a").2.1 _ rfl).1⟩

set_option maxRecDepth 20000 in
/-- C8 counterexample: with two changed files where the model review of
the first throws and the second succeeds with score 80, the aggregate
lowest score is 80, not 100 as the claim states. -/
theorem spec_C8_counterexample :
    (performSchemaReview wFetch wAiFailA ["a", "b"] "bb" "hh").reviewedFiles.map
        ReviewedFile.aiError = [some "AI failed", none] ∧
    (performSchemaReview wFetch wAiFailA ["a", "b"] "bb" "hh").reviewedFiles.map
        (fun f => f.aiReview.map AiReview.score) = [none, some 80] ∧
    ¬ (performSchemaReview wFetch wAiFailA ["a", "b"] "bb" "hh").overallLowestScore = 100 := by
  decide

/-- C8 (amended): given exactly two changed files where the model review
of the first throws and the review of the second succeeds with score 80,
the aggregate result contains two outcomes, the first with its failure
reason set and the second with assessment score 80, and the aggregate
lowest score is 80, the minimum over present assessments (the failure does
not change it), with the second file recorded as the lowest-score file. -/
theorem spec_C8_failure_isolation_two_files (fetch : String → String → String)
    (ai : String → Except String AiReview) (p1 p2 b h e : String) (r : AiReview)
    (h1 : ai (promptForAI p1 (fetch p1 b) (fetch p1 h)) = Except.error e)
    (h2 : ai (promptForAI p2 (fetch p2 b) (fetch p2 h)) = Except.ok r)
    (h3 : r.score = 80) :
    (performSchemaReview fetch ai [p1, p2] b h).reviewedFiles.map
        ReviewedFile.aiError = [some e, none] ∧
    (performSchemaReview fetch ai [p1, p2] b h).reviewedFiles.map
        (fun f => f.aiReview.map AiReview.score) = [none, some 80] ∧
    (performSchemaReview fetch ai [p1, p2] b h).overallLowestScore = 80 ∧
    (performSchemaReview fetch ai [p1, p2] b h).lowScoreFile = p2 := by
  have hf1 := reviewSingleFile_err fetch ai p1 b h e h1
  have hf2 := reviewSingleFile_ok fetch ai p2 b h r h2
  have hfiles : (performSchemaReview fetch ai [p1, p2] b h).reviewedFiles =
      [reviewSingleFile fetch ai p1 b h, reviewSingleFile fetch ai p2 b h] := by
    unfold performSchemaReview
    rw [reviewLoop_files]
    rfl
  have hscores : scoresOf fetch ai b h [p1, p2] = [80] := by
    unfold scoresOf
    simp [List.filterMap_cons, hf1.1, hf2.1, h3]
  have hlow : (performSchemaReview fetch ai [p1, p2] b h).overallLowestScore = 80 := by
    unfold performSchemaReview
    rw [reviewLoop_lowest, hscores]
    decide
  have hmain := reviewLoop_lowFile fetch ai b h [p1, p2] [] 100 "" 80
    (by rw [hscores]; decide)
  obtain ⟨p0, hfind, hres⟩ := hmain.1 (by decide)
  have hp1f : minScorePred 80 (reviewSingleFile fetch ai p1 b h) = false := by
    simp [minScorePred, hf1.1]
  have hp2t : minScorePred 80 (reviewSingleFile fetch ai p2 b h) = true := by
    simp [minScorePred, hf2.1, h3]
  have hfind2 : List.find?
      (fun p => minScorePred 80 (reviewSingleFile fetch ai p b h)) [p1, p2] = some p2 := by
    simp [List.find?_cons, hp1f, hp2t]
  have hp0 : p0 = p2 := by
    rw [hfind2] at hfind
    exact (Option.some.inj hfind).symm
  refine ⟨?_, ?_, hlow, ?_⟩
  · rw [hfiles]
    simp [hf1.2, hf2.2]
  · rw [hfiles]
    simp [hf1.1, hf2.1, h3]
  · unfold performSchemaReview
    rw [hres, hp0]

set_option maxRecDepth 20000 in
/-- C8 witness: the amended statement evaluated on a concrete oracle pair
(first file throws, second file scores 80). -/
theorem spec_C8_failure_isolation_two_files_witness :
    (performSchemaReview wFetch wAiFailA ["a", "b"] "bb" "hh").overallLowestScore = 80 ∧
    (performSchemaReview wFetch wAiFailA ["a", "b"] "bb" "hh").lowScoreFile = "b" := by
  obtain ⟨-, -, h3, h4⟩ := spec_C8_failure_isolation_two_files wFetch wAiFailA "a" "b"
    "bb" "hh" "AI failed" (⟨"s", "d", "r", 80⟩ : AiReview)
    (by rfl) (by rfl) rfl
  exact ⟨h3, h4⟩

/-- C10: after orchestration, `lowScoreFile` is the path of the first
outcome (in input order) whose assessment score equals the minimum
(`overallLowestScore`), and it remains the empty string whenever no
assessment has a score strictly below 100, including when every file
errored and when every assessed file scored exactly 100. -/
theorem spec_C10_low_score_file (fetch : String → String → String)
    (ai : String → Except String AiReview) (paths : List String) (b h : String) :
    ((∀ f ∈ (performSchemaReview fetch ai paths b h).reviewedFiles,
        ∀ r, f.aiReview = some r → 100 ≤ r.score) →
      (performSchemaReview fetch ai paths b h).lowScoreFile = "") ∧
    ((∃ f ∈ (performSchemaReview fetch ai paths b h).reviewedFiles,
        ∃ r, f.aiReview = some r ∧ r.score < 100) →
      ∃ f0, (performSchemaReview fetch ai paths b h).reviewedFiles.find?
          (minScorePred (performSchemaReview fetch ai paths b h).overallLowestScore) = some f0 ∧
        (performSchemaReview fetch ai paths b h).lowScoreFile = f0.filePath) := by
  have hfiles : (performSchemaReview fetch ai paths b h).reviewedFiles =
      paths.map (fun p => reviewSingleFile fetch ai p b h) := by
    unfold performSchemaReview
    rw [reviewLoop_files]
    rfl
  have hlow : (performSchemaReview fetch ai paths b h).overallLowestScore =
      (scoresOf fetch ai b h paths).foldl min 100 := by
    unfold performSchemaReview
    rw [reviewLoop_lowest]
  have hmain := reviewLoop_lowFile fetch ai b h paths [] 100 ""
    ((scoresOf fetch ai b h paths).foldl min 100) rfl
  constructor
  · intro hall
    have hge : ∀ s ∈ scoresOf fetch ai b h paths, 100 ≤ s := by
      intro s hs
      unfold scoresOf at hs
      rcases List.mem_filterMap.1 hs with ⟨p, hp, hsome⟩
      rcases Option.map_eq_some'.1 hsome with ⟨r, hr, hscore⟩
      rw [← hscore]
      refine hall (reviewSingleFile fetch ai p b h) ?_ r hr
      rw [hfiles]
      exact List.mem_map_of_mem _ hp
    have heq : (scoresOf fetch ai b h paths).foldl min 100 = 100 :=
      foldl_min_of_all_ge _ 100 hge
    exact hmain.2 (by rw [heq]; exact lt_irrefl 100)
  · intro hex
    rcases hex with ⟨f, hf, r, hr, hlt⟩
    rw [hfiles] at hf
    rcases List.mem_map.1 hf with ⟨p, hp, rfl⟩
    have hsmem : r.score ∈ scoresOf fetch ai b h paths := by
      unfold scoresOf
      exact List.mem_filterMap.2 ⟨p, hp, by rw [hr]; rfl⟩
    have hLlt : (scoresOf fetch ai b h paths).foldl min 100 < 100 :=
      lt_of_le_of_lt (foldl_min_le_mem _ _ _ hsmem) hlt
    obtain ⟨p0, hfind, hres⟩ := hmain.1 hLlt
    refine ⟨reviewSingleFile fetch ai p0 b h, ?_, ?_⟩
    · rw [hfiles, hlow, List.find?_map]
      have hcomp : (minScorePred ((scoresOf fetch ai b h paths).foldl min 100) ∘
          fun p => reviewSingleFile fetch ai p b h) =
          fun p => minScorePred ((scoresOf fetch ai b h paths).foldl min 100)
            (reviewSingleFile fetch ai p b h) := rfl
      rw [hcomp, hfind]
      rfl
    · unfold performSchemaReview
      rw [hres, reviewSingleFile_filePath]

/-- C10 witness: a concrete two-file run where both files score 80, so the
first file is recorded as the lowest-score file. -/
theorem spec_C10_low_score_file_witness :
    (performSchemaReview wFetch wAi80 ["a", "b"] "bb" "hh").lowScoreFile = "a" := by
  obtain ⟨-, hB⟩ := spec_C10_low_score_file wFetch wAi80 ["a", "b"] "bb" "hh"
  obtain ⟨f0, hfind, hres⟩ := hB ⟨reviewSingleFile wFetch wAi80 "a" "bb" "hh",
    by decide, ⟨"s", "d", "r", 80⟩, by decide, by decide⟩
  have hconc : (performSchemaReview wFetch wAi80 ["a", "b"] "bb" "hh").reviewedFiles.find?
      (minScorePred (performSchemaReview wFetch wAi80 ["a", "b"] "bb" "hh").overallLowestScore) =
      some (reviewSingleFile wFetch wAi80 "a" "bb" "hh") := by decide
  have hf0 : f0 = reviewSingleFile wFetch wAi80 "a" "bb" "hh" := by
    rw [hconc] at hfind
    exact (Option.some.inj hfind).symm
  rw [hres, hf0]
  decide

/-- C2: for every score in 0..100, the severity badge rendered for an
outcome with an assessment is the danger badge exactly when the score is
strictly below 25, the warning badge exactly when it is in 25..74, and the
safe badge exactly when it is at least 75; in particular 24, 25, 74 and 75
select danger, warning, warning and safe.  The final conjunct ties the
badge to the rendered per-outcome block. -/
theorem spec_C2_severity_thresholds (s : Int) (h0 : 0 ≤ s) (h1 : s ≤ 100) :
    (severitySpan s = dangerSpan ↔ s < 25) ∧
    (severitySpan s = warningSpan ↔ (25 ≤ s ∧ s < 75)) ∧
    (severitySpan s = safeSpan ↔ 75 ≤ s) ∧
    severitySpan 24 = dangerSpan ∧ severitySpan 25 = warningSpan ∧
    severitySpan 74 = warningSpan ∧ severitySpan 75 = safeSpan ∧
    (∀ (encode : String → String) (owner repo : String) (n : Int)
       (f : ReviewedFile) (r : AiReview), f.aiReview = some r →
      ∃ y, renderReviewedFile encode owner repo n f =
        ("### **Score:** " ++ severitySpan r.score) ++ y) := by
  refine ⟨?_, ?_, ?_, by decide, by decide, by decide, by decide, ?_⟩
  · unfold severitySpan
    split_ifs with ha hb
    · exact iff_of_true rfl ha
    · exact iff_of_false (by decide) ha
    · exact iff_of_false (by decide) ha
  · unfold severitySpan
    split_ifs with ha hb
    · exact iff_of_false (by decide) (by omega)
    · exact iff_of_true rfl ⟨by omega, hb⟩
    · exact iff_of_false (by decide) (by omega)
  · unfold severitySpan
    split_ifs with ha hb
    · exact iff_of_false (by decide) (by omega)
    · exact iff_of_false (by decide) (by omega)
    · exact iff_of_true rfl (by omega)
  · intro encode owner repo n f r hr
    refine ⟨toString r.score ++
      ("/100\n\n<sub>File: [" ++
        (f.filePath ++
          ("](" ++
            (fileDiffLink encode owner repo n f.filePath ++
              (")</sub>\n\n**Executive Summary:**\n" ++
                (r.executiveSummary ++
                  ("\n\n" ++
                    (formatSectionString "Detailed Analysis" r.detailedAnalysis ++
                      formatSectionString "Recommendations" r.recommendations)))))))), ?_⟩
    simp only [renderReviewedFile, hr]
    simp [String.append_assoc]

/-- C2 witness: the danger iff at the boundary score 24. -/
theorem spec_C2_severity_thresholds_witness :
    (0 ≤ (24 : Int) ∧ (24 : Int) ≤ 100) ∧
    (severitySpan 24 = dangerSpan ↔ (24 : Int) < 25) := by
  exact ⟨⟨by decide, by decide⟩,
    (spec_C2_severity_thresholds 24 (by decide) (by decide)).1⟩

/-- C5: for every aggregate result and threshold in 0..100, the run tail
emits a failure effect exactly when the lowest score is strictly below the
threshold, the summary comment is posted exactly once, and any failure
effect carries the message naming the offending file, the score and the
threshold and appears strictly after the comment effect in the trace. -/
theorem spec_C5_threshold_gate (review : SchemaReviewResult) (t : Int)
    (body url : String) (h0 : 0 ≤ t) (h1 : t ≤ 100) :
    ((∃ m, RunEffect.failed m ∈ runTail review t body url) ↔
      review.overallLowestScore < t) ∧
    (runTail review t body url).count (RunEffect.comment body) = 1 ∧
    (∀ m, RunEffect.failed m ∈ runTail review t body url →
      m = failMessage review.lowScoreFile review.overallLowestScore t ∧
      (∃ x y, m = x ++ review.lowScoreFile ++ y) ∧
      (∃ x y, m = x ++ toString review.overallLowestScore ++ y) ∧
      (∃ x y, m = x ++ toString t ++ y) ∧
      ∃ pre post, runTail review t body url = pre ++ RunEffect.failed m :: post ∧
        RunEffect.comment body ∈ pre) := by
  by_cases hlt : review.overallLowestScore < t
  · refine ⟨?_, ?_, ?_⟩
    · exact iff_of_true
        ⟨failMessage review.lowScoreFile review.overallLowestScore t,
         by simp [runTail, hlt]⟩ hlt
    · simp [runTail, hlt, List.count_cons]
    · intro m hm
      have hmm : m = failMessage review.lowScoreFile review.overallLowestScore t := by
        simp [runTail, hlt] at hm
        exact hm
      subst hmm
      refine ⟨rfl, ?_, ?_, ?_, ?_⟩
      · exact ⟨"Action failed: File " ++ sglQuote,
          (sglQuote ++ " received an AI review score of ") ++
            (toString review.overallLowestScore ++
              (", which is below the threshold of " ++ (toString t ++ "."))),
          by simp [failMessage, String.append_assoc]⟩
      · exact ⟨("Action failed: File " ++ sglQuote) ++ review.lowScoreFile ++
            (sglQuote ++ " received an AI review score of "),
          ", which is below the threshold of " ++ (toString t ++ "."),
          by simp [failMessage, String.append_assoc]⟩
      · exact ⟨("Action failed: File " ++ sglQuote) ++ review.lowScoreFile ++
            (sglQuote ++ " received an AI review score of ") ++
            toString review.overallLowestScore ++
            ", which is below the threshold of ",
          ".", by simp [failMessage, String.append_assoc]⟩
      · refine ⟨[RunEffect.comment body, RunEffect.output "comment-url" url], [], ?_, ?_⟩
        · simp [runTail, hlt]
        · simp
  · refine ⟨?_, ?_, ?_⟩
    · refine iff_of_false ?_ hlt
      rintro ⟨m, hm⟩
      simp [runTail, hlt] at hm
    · simp [runTail, hlt, List.count_cons]
    · intro m hm
      simp [runTail, hlt] at hm

/-- C5 witness: the specification example with threshold 50, lowest score
40 from file schemas/order.json. -/
theorem spec_C5_threshold_gate_witness :
    (0 ≤ (50 : Int) ∧ (50 : Int) ≤ 100) ∧
    ((∃ m, RunEffect.failed m ∈
        runTail ⟨[], 40, "schemas/order.json"⟩ 50 "B" "U") ↔
      (⟨[], 40, "schemas/order.json"⟩ : SchemaReviewResult).overallLowestScore < 50) ∧
    (runTail ⟨[], 40, "schemas/order.json"⟩ 50 "B" "U").count
      (RunEffect.comment "B") = 1 := by
  obtain ⟨hiff, hcount, -⟩ := spec_C5_threshold_gate ⟨[], 40, "schemas/order.json"⟩
    50 "B" "U" (by decide) (by decide)
  exact ⟨⟨by decide, by decide⟩, hiff, hcount⟩

/-- C7: the content fetcher never raises to its caller (it is a total
function into strings): any retrieval failure yields the descriptive
placeholder embedding the error message, and a path resolving to a
directory yields the fixed sentinel string. -/
theorem spec_C7_fetch_never_raises
    (getContent : String → String → Except String ContentResponse)
    (decode64 : String → String) (path ref : String) :
    (∀ msg, getContent path ref = Except.error msg →
      getFileContentAtRef getContent decode64 path ref =
        "Could not retrieve content (Error: " ++ (msg ++ ")") ∧
      ∃ x y, getFileContentAtRef getContent decode64 path ref = x ++ msg ++ y) ∧
    (getContent path ref = Except.ok ContentResponse.directory →
      getFileContentAtRef getContent decode64 path ref =
        "This is a directory, content not displayed.") := by
  constructor
  · intro msg hm
    unfold getFileContentAtRef
    rw [hm]
    exact ⟨rfl, "Could not retrieve content (Error: ", ")",
      (String.append_assoc _ _ _).symm⟩
  · intro hd
    unfold getFileContentAtRef
    rw [hd]

/-- C7 witness: a failing retrieval on a concrete oracle produces the
error-embedding placeholder. -/
theorem spec_C7_fetch_never_raises_witness :
    getFileContentAtRef (fun _ _ => Except.error "404") (fun s => s) "p" "r" =
      "Could not retrieve content (Error: " ++ ("404" ++ ")") := by
  exact ((spec_C7_fetch_never_raises (fun _ _ => Except.error "404")
    (fun s => s) "p" "r").1 "404" rfl).1

/-- C9: when the set of changed paths after optional directory filtering
is empty, the run stops before any review: with an active directory filter
it posts no comment at all, without a filter it posts exactly the fixed
no-files comment, and in both cases the schema review (and with it the
model reviewer) is never invoked. -/
theorem spec_C9_empty_changeset (listFiles : List String) (ctx : ActionContext)
    (dir : Option String) (fetch : String → String → String)
    (ai : String → Except String AiReview) (encode : String → String)
    (owner repo : String) (t : Int)
    (hev : ctx.eventName = "pull_request") (hpr : ctx.pullRequest ≠ none)
    (hempty : getChangedFiles listFiles dir = []) :
    (dir = none →
      runModel listFiles ctx dir fetch ai encode owner repo t =
        [RunEffect.info "No files changed in this pull request.",
         RunEffect.comment noFilesBody]) ∧
    (∀ d, dir = some d → ∀ bdy,
      RunEffect.comment bdy ∉ runModel listFiles ctx dir fetch ai encode owner repo t) ∧
    (∀ ps, RunEffect.review ps ∉ runModel listFiles ctx dir fetch ai encode owner repo t) := by
  rcases hctx : ctx.pullRequest with _ | pr
  · exact absurd hctx hpr
  · have hrun : runModel listFiles ctx dir fetch ai encode owner repo t =
        (match dir with
         | some d => [RunEffect.info
            ("No changed files found within the specified directory: " ++
              d ++ ". Action will not comment.")]
         | none => [RunEffect.info "No files changed in this pull request.",
            RunEffect.comment noFilesBody]) := by
      rcases dir with _ | d <;>
        · unfold runModel initialChecksAndGetChangedFiles
          simp [hev, hctx, hempty]
    refine ⟨?_, ?_, ?_⟩
    · intro hd
      subst hd
      exact hrun
    · intro d hd bdy hmem
      subst hd
      rw [hrun] at hmem
      simp at hmem
    · intro ps hmem
      rcases dir with _ | d
      · rw [hrun] at hmem
        simp at hmem
      · rw [hrun] at hmem
        simp at hmem

/-- C9 witness: a pull-request event with zero changed files and no
directory filter posts exactly the fixed no-files comment. -/
theorem spec_C9_empty_changeset_witness :
    runModel [] ⟨"pull_request", some ⟨1, "h", "b"⟩, none⟩ none wFetch wAi80
      (fun s => s) "o" "r" 50 =
      [RunEffect.info "No files changed in this pull request.",
       RunEffect.comment noFilesBody] := by
  exact (spec_C9_empty_changeset [] ⟨"pull_request", some ⟨1, "h", "b"⟩, none⟩
    none wFetch wAi80 (fun s => s) "o" "r" 50 rfl (by decide) rfl).1 rfl

/-! Fixed-point lemmas for the list-normalization transform. -/

theorem trimEndL_fixed_of_rev_head (w : List Char) (c : Char) (t : List Char)
    (hr : w.reverse = c :: t) (hc : isWS c = false) : trimEndL w = w := by
  unfold trimEndL
  rw [hr, List.dropWhile_cons_of_neg (by simp [hc]), ← hr, List.reverse_reverse]

theorem rev_dropWhile_of_trimEnd_fixed (z : List Char) (h : trimEndL z = z) :
    z.reverse.dropWhile isWS = z.reverse := by
  unfold trimEndL at h
  have h2 := congrArg List.reverse h
  rw [List.reverse_reverse] at h2
  exact h2

theorem head_rev_not_ws (z : List Char) (hz : z ≠ []) (h : trimEndL z = z) :
    ∃ c t, z.reverse = c :: t ∧ isWS c = false := by
  have hd := rev_dropWhile_of_trimEnd_fixed z h
  rcases hr : z.reverse with _ | ⟨c, t⟩
  · exact absurd (List.reverse_eq_nil_iff.1 hr) hz
  · rw [hr] at hd
    exact ⟨c, t, rfl, head_dropWhile_false isWS (c :: t) c t hd⟩

theorem trimEndL_dropWhile (y : List Char) (hy : trimEndL y = y) :
    trimEndL (y.dropWhile isWS) = y.dropWhile isWS := by
  rcases hz : y.dropWhile isWS with _ | ⟨d, w⟩
  · rfl
  · rcases hrdw : (d :: w).reverse with _ | ⟨c, t⟩
    · exact absurd (List.reverse_eq_nil_iff.1 hrdw) (by simp)
    · apply trimEndL_fixed_of_rev_head _ c t hrdw
      have hyrev : y.reverse.dropWhile isWS = y.reverse :=
        rev_dropWhile_of_trimEnd_fixed y hy
      have hysplit : y = y.takeWhile isWS ++ (d :: w) := by
        rw [← hz, List.takeWhile_append_dropWhile]
      have hrev : y.reverse = c :: (t ++ (y.takeWhile isWS).reverse) := by
        conv_lhs => rw [hysplit]
        rw [List.reverse_append, hrdw]
        rfl
      rw [hrev] at hyrev
      exact head_dropWhile_false isWS _ c _ hyrev

theorem trimEndL_trimL (l : List Char) : trimEndL (trimL l) = trimL l :=
  trimEndL_dropWhile (trimEndL l) (trimEndL_idem l)

theorem trimL_trimEndL (l : List Char) : trimL (trimEndL l) = trimL l := by
  unfold trimL
  rw [trimEndL_idem]

theorem mem_trimL_sub (l : List Char) (c : Char) (h : c ∈ trimL l) : c ∈ l :=
  mem_trimEndL l c (mem_of_mem_dropWhile isWS (trimEndL l) c h)

theorem trimEndL_cons2 (a b : Char) (z : List Char) (hz : z ≠ [])
    (h : trimEndL z = z) : trimEndL (a :: b :: z) = a :: b :: z := by
  rcases head_rev_not_ws z hz h with ⟨c, t, hr, hc⟩
  apply trimEndL_fixed_of_rev_head _ c (t ++ [b, a]) _ hc
  rw [List.reverse_cons, List.reverse_cons, hr]
  simp

theorem markerTest_bullet (z : List Char) : markerTest ('-' :: ' ' :: z) = true := by
  have h1 : matchMarkerRest ('-' :: ' ' :: z) = some (' ' :: z) := rfl
  unfold markerTest
  rw [List.dropWhile_cons_of_neg (by decide), h1]
  rfl

theorem processLine_fixed (l : List Char) (hnl : '\n' ∉ l) :
    ∃ p, processLine l = p ++ ['\n'] ∧ '\n' ∉ p ∧ processLine p = p ++ ['\n'] := by
  by_cases hb : trimL l = []
  · exact ⟨l, by simp [processLine, hb], hnl, by simp [processLine, hb]⟩
  · by_cases hm : markerTest (trimEndL l) = true
    · refine ⟨trimEndL l, by simp [processLine, hb, hm], ?_, ?_⟩
      · intro hmem
        exact hnl (mem_trimEndL l '\n' hmem)
      · have ht : trimL (trimEndL l) = trimL l := trimL_trimEndL l
        have hm2 : markerTest (trimEndL (trimEndL l)) = true := by
          rw [trimEndL_idem]
          exact hm
        simp [processLine, ht, hb, hm, hm2, trimEndL_idem]
    · have hzfix : trimEndL (trimL l) = trimL l := trimEndL_trimL l
      refine ⟨'-' :: ' ' :: trimL l, by simp [processLine, hb, hm], ?_, ?_⟩
      · intro hmem
        rcases List.mem_cons.1 hmem with h1 | hmem1
        · exact absurd h1 (by decide)
        rcases List.mem_cons.1 hmem1 with h2 | hmem2
        · exact absurd h2 (by decide)
        · exact hnl (mem_trimL_sub l '\n' hmem2)
      · have hfix : trimEndL ('-' :: ' ' :: trimL l) = '-' :: ' ' :: trimL l :=
          trimEndL_cons2 '-' ' ' (trimL l) hb hzfix
        have hblank : trimL ('-' :: ' ' :: trimL l) ≠ [] := by
          have heq : trimL ('-' :: ' ' :: trimL l) =
              trimStartL (trimEndL ('-' :: ' ' :: trimL l)) := rfl
          rw [heq, hfix]
          show trimStartL ('-' :: ' ' :: trimL l) ≠ []
          unfold trimStartL
          rw [List.dropWhile_cons_of_neg (by decide)]
          simp
        have hmk : markerTest (trimEndL ('-' :: ' ' :: trimL l)) = true := by
          rw [hfix]
          exact markerTest_bullet (trimL l)
        simp [processLine, hblank, hmk, hfix, markerTest_bullet]

theorem lines_structure (ls : List (List Char)) (h : ∀ l ∈ ls, '\n' ∉ l) :
    ∃ ps : List (List Char), ls.map processLine = ps.map (fun p => p ++ ['\n']) ∧
      ∀ p ∈ ps, '\n' ∉ p ∧ processLine p = p ++ ['\n'] := by
  induction ls with
  | nil => exact ⟨[], rfl, by simp⟩
  | cons l ls ih =>
    rcases processLine_fixed l (h l (List.mem_cons_self l ls)) with ⟨p, hp, hpn, hpf⟩
    rcases ih (fun a ha => h a (List.mem_cons_of_mem l ha)) with ⟨ps, hmap, hall⟩
    refine ⟨p :: ps, ?_, ?_⟩
    · simp [hp, hmap]
    · intro q hq
      rcases List.mem_cons.1 hq with rfl | hq2
      · exact ⟨hpn, hpf⟩
      · exact hall q hq2

theorem splitLines_flatten (ps : List (List Char)) (h : ∀ p ∈ ps, '\n' ∉ p) :
    splitLines ((ps.map (fun p => p ++ ['\n'])).flatten) = ps ++ [[]] := by
  induction ps with
  | nil => rfl
  | cons p ps ih =>
    have hstep : ((p :: ps).map (fun p => p ++ ['\n'])).flatten =
        p ++ '\n' :: ((ps.map (fun p => p ++ ['\n'])).flatten) := by
      simp
    rw [hstep, splitLines_append_newline p _ (h p (List.mem_cons_self p ps)),
      ih (fun a ha => h a (List.mem_cons_of_mem p ha))]
    rfl

theorem normalizeLines_twice (x : List Char) :
    normalizeLines (normalizeLines x) = normalizeLines x ++ ['\n'] ∧
    ∀ l ∈ splitLines (normalizeLines x), processLine l = l ++ ['\n'] := by
  rcases lines_structure (splitLines x) (no_newline_in_splitLines x) with ⟨ps, hmap, hall⟩
  have h1 : normalizeLines x = (ps.map (fun p => p ++ ['\n'])).flatten := by
    unfold normalizeLines
    rw [hmap]
  have h2 : splitLines (normalizeLines x) = ps ++ [[]] := by
    rw [h1]
    exact splitLines_flatten ps (fun p hp => (hall p hp).1)
  constructor
  · have hout : normalizeLines (normalizeLines x) =
        ((splitLines (normalizeLines x)).map processLine).flatten := rfl
    rw [hout, h2, List.map_append, List.flatten_append]
    have h3 : ps.map processLine = ps.map (fun p => p ++ ['\n']) :=
      List.map_congr_left (fun p hp => (hall p hp).2)
    have hpl : processLine [] = ['\n'] := rfl
    rw [h3, ← h1]
    simp [hpl]
  · intro l hl
    rw [h2] at hl
    rcases List.mem_append.1 hl with hmem | hmem
    · exact (hall l hmem).2
    · rw [List.mem_singleton.1 hmem]
      rfl

/-- C4 counterexample: the input consisting of the single already-bulleted
line `- a` satisfies the claim premise (every non-blank line starts with a
recognized list marker), yet applying the normalization transform twice
does not yield the same output as applying it once: the second pass
appends one extra trailing newline, because the once-output ends in a line
terminator whose re-split produces an additional empty line. -/
theorem spec_C4_counterexample :
    (∀ l ∈ splitLines ("- a".data), trimL l ≠ [] → markerTest l = true) ∧
    normalizeLines (normalizeLines ("- a".data)) ≠ normalizeLines ("- a".data) := by
  decide

/-- C4 (amended): on text with at least one non-blank line in which every
non-blank line already begins with a recognized list marker, the
normalization transform is idempotent up to the final line terminator:
applying it twice yields the once-output with exactly one extra trailing
newline, and every individual line of the once-output (including the final
empty line produced by the trailing terminator) is left unchanged by the
second pass. -/
theorem spec_C4_idempotent_up_to_newline (x : List Char)
    (h1 : ∃ l ∈ splitLines x, trimL l ≠ [])
    (h2 : ∀ l ∈ splitLines x, trimL l ≠ [] → markerTest l = true) :
    normalizeLines (normalizeLines x) = normalizeLines x ++ ['\n'] ∧
    ∀ l ∈ splitLines (normalizeLines x), processLine l = l ++ ['\n'] :=
  normalizeLines_twice x

/-- C4 witness: the amended statement evaluated on the concrete
already-bulleted input `- a`. -/
theorem spec_C4_idempotent_up_to_newline_witness :
    normalizeLines (normalizeLines ("- a".data)) =
      normalizeLines ("- a".data) ++ ['\n'] :=
  (spec_C4_idempotent_up_to_newline ("- a".data) (by decide) (by decide)).1

/-! Character-class lemmas for the list-marker regex. -/

theorem ws_cases (c : Char) (h : isWS c = true) :
    c = ' ' ∨ c = '\t' ∨ c = '\n' ∨ c = '\r' ∨ c = Char.ofNat 11 ∨ c = Char.ofNat 12 := by
  simp [isWS] at h
  tauto

theorem roman_cases (c : Char) (h : isRomanChar c = true) :
    c = 'i' ∨ c = 'v' ∨ c = 'x' ∨ c = 'l' ∨ c = 'c' ∨ c = 'd' ∨ c = 'm' ∨
    c = 'I' ∨ c = 'V' ∨ c = 'X' ∨ c = 'L' ∨ c = 'C' ∨ c = 'D' ∨ c = 'M' := by
  simp [isRomanChar] at h
  tauto

theorem digit_not_ws (d : Char) (hd : isDigitChar d = true) : isWS d = false := by
  cases hw : isWS d
  · rfl
  · rcases ws_cases d hw with rfl | rfl | rfl | rfl | rfl | rfl <;>
      exact absurd hd (by decide)

theorem roman_not_ws (c : Char) (hc : isRomanChar c = true) : isWS c = false := by
  cases hw : isWS c
  · rfl
  · rcases ws_cases c hw with rfl | rfl | rfl | rfl | rfl | rfl <;>
      exact absurd hc (by decide)

theorem digit_not_sym (d : Char) (hd : isDigitChar d = true) :
    ¬(d = '*' ∨ d = '-' ∨ d = '+') := by
  rintro (rfl | rfl | rfl) <;> exact absurd hd (by decide)

theorem digit_not_o (d : Char) (hd : isDigitChar d = true) :
    ¬(d = 'o' ∨ d = 'O') := by
  rintro (rfl | rfl) <;> exact absurd hd (by decide)

theorem roman_not_sym (c : Char) (hc : isRomanChar c = true) :
    ¬(c = '*' ∨ c = '-' ∨ c = '+') := by
  rintro (rfl | rfl | rfl) <;> exact absurd hc (by decide)

theorem roman_not_o (c : Char) (hc : isRomanChar c = true) :
    ¬(c = 'o' ∨ c = 'O') := by
  rintro (rfl | rfl) <;> exact absurd hc (by decide)

theorem roman_not_digit (c : Char) (hc : isRomanChar c = true) :
    isDigitChar c = false := by
  rcases roman_cases c hc with rfl | rfl | rfl | rfl | rfl | rfl | rfl | rfl |
    rfl | rfl | rfl | rfl | rfl | rfl <;> decide

theorem matchMarkerRest_cons (x : Char) (xs : List Char) :
    matchMarkerRest (x :: xs) =
      (if x = '*' ∨ x = '-' ∨ x = '+' then some xs
       else if x = 'o' ∨ x = 'O' then some xs
       else if isDigitChar x then afterDot (List.dropWhile isDigitChar (x :: xs))
       else if isRomanChar x then afterDot (List.dropWhile isRomanChar (x :: xs))
       else none) := rfl

theorem afterDot_eq_some (u v : List Char) :
    afterDot u = some v ↔ u = '.' :: v := by
  cases u with
  | nil => simp [afterDot]
  | cons c r =>
    by_cases hc : c = '.'
    · subst hc
      simp [afterDot]
    · simp [afterDot, hc]

theorem wsAfter_eq_true (o : Option (List Char)) :
    wsAfter o = true ↔ ∃ c rest, o = some (c :: rest) ∧ isWS c = true := by
  rcases o with _ | s
  · simp [wsAfter]
  · rcases s with _ | ⟨c, r⟩
    · simp [wsAfter]
    · constructor
      · intro h
        exact ⟨c, r, rfl, h⟩
      · rintro ⟨c2, r2, he, hw⟩
        injection he with h2
        injection h2 with h3 h4
        rw [h3]
        exact hw

theorem markerTest_iff_specMarker (l : List Char) :
    markerTest l = true ↔ specMarker l := by
  constructor
  · intro h
    unfold markerTest at h
    rcases (wsAfter_eq_true _).1 h with ⟨c, rest, hm, hcws⟩
    rcases hr : l.dropWhile isWS with _ | ⟨x, xs⟩
    · rw [hr] at hm
      simp [matchMarkerRest] at hm
    · rw [hr, matchMarkerRest_cons] at hm
      have hl : l = l.takeWhile isWS ++ (x :: xs) := by
        rw [← hr, List.takeWhile_append_dropWhile]
      have hws : ∀ w ∈ l.takeWhile isWS, isWS w = true :=
        fun w hw => List.mem_takeWhile_imp hw
      by_cases h1 : x = '*' ∨ x = '-' ∨ x = '+'
      · rw [if_pos h1] at hm
        have hxs := Option.some.inj hm
        refine ⟨l.takeWhile isWS, [x], c, rest, ?_, hws, ?_, hcws⟩
        · conv_lhs => rw [hl, hxs]
          simp
        · unfold isMarkerToken
          rcases h1 with rfl | rfl | rfl
          · exact Or.inl rfl
          · exact Or.inr (Or.inl rfl)
          · exact Or.inr (Or.inr (Or.inl rfl))
      · rw [if_neg h1] at hm
        by_cases h2 : x = 'o' ∨ x = 'O'
        · rw [if_pos h2] at hm
          have hxs := Option.some.inj hm
          refine ⟨l.takeWhile isWS, [x], c, rest, ?_, hws, ?_, hcws⟩
          · conv_lhs => rw [hl, hxs]
            simp
          · unfold isMarkerToken
            rcases h2 with rfl | rfl
            · exact Or.inr (Or.inr (Or.inr (Or.inl rfl)))
            · exact Or.inr (Or.inr (Or.inr (Or.inr (Or.inl rfl))))
        · rw [if_neg h2] at hm
          by_cases h3 : isDigitChar x = true
          · rw [if_pos h3] at hm
            have hdot := (afterDot_eq_some _ _).1 hm
            have hsplit : x :: xs = (x :: xs).takeWhile isDigitChar ++ ('.' :: c :: rest) := by
              rw [← hdot, List.takeWhile_append_dropWhile]
            have hds_ne : (x :: xs).takeWhile isDigitChar ≠ [] := by
              rw [List.takeWhile_cons_of_pos h3]
              simp
            have hds_all : ∀ d ∈ (x :: xs).takeWhile isDigitChar, isDigitChar d = true :=
              fun d hd => List.mem_takeWhile_imp hd
            refine ⟨l.takeWhile isWS, (x :: xs).takeWhile isDigitChar ++ ['.'],
              c, rest, ?_, hws, ?_, hcws⟩
            · conv_lhs => rw [hl, hsplit]
              simp [List.append_assoc]
            · unfold isMarkerToken
              exact Or.inr (Or.inr (Or.inr (Or.inr (Or.inr (Or.inl
                ⟨(x :: xs).takeWhile isDigitChar, hds_ne, hds_all, rfl⟩)))))
          · rw [if_neg h3] at hm
            by_cases h4 : isRomanChar x = true
            · rw [if_pos h4] at hm
              have hdot := (afterDot_eq_some _ _).1 hm
              have hsplit : x :: xs = (x :: xs).takeWhile isRomanChar ++ ('.' :: c :: rest) := by
                rw [← hdot, List.takeWhile_append_dropWhile]
              have hrs_ne : (x :: xs).takeWhile isRomanChar ≠ [] := by
                rw [List.takeWhile_cons_of_pos h4]
                simp
              have hrs_all : ∀ d ∈ (x :: xs).takeWhile isRomanChar, isRomanChar d = true :=
                fun d hd => List.mem_takeWhile_imp hd
              refine ⟨l.takeWhile isWS, (x :: xs).takeWhile isRomanChar ++ ['.'],
                c, rest, ?_, hws, ?_, hcws⟩
              · conv_lhs => rw [hl, hsplit]
                simp [List.append_assoc]
              · unfold isMarkerToken
                exact Or.inr (Or.inr (Or.inr (Or.inr (Or.inr (Or.inr
                  ⟨(x :: xs).takeWhile isRomanChar, hrs_ne, hrs_all, rfl⟩)))))
            · rw [if_neg h4] at hm
              cases hm
  · rintro ⟨ws, tok, c, rest, rfl, hws, htok, hcws⟩
    unfold markerTest
    unfold isMarkerToken at htok
    rcases htok with rfl | rfl | rfl | rfl | rfl |
      ⟨ds, hne, hall, rfl⟩ | ⟨rs, hne, hall, rfl⟩
    · have hshape : ws ++ ['*'] ++ c :: rest = ws ++ ('*' :: c :: rest) := by simp
      rw [hshape, dropWhile_append_all isWS ws _ hws,
        List.dropWhile_cons_of_neg (by decide), matchMarkerRest_cons,
        if_pos (by decide)]
      exact hcws
    · have hshape : ws ++ ['-'] ++ c :: rest = ws ++ ('-' :: c :: rest) := by simp
      rw [hshape, dropWhile_append_all isWS ws _ hws,
        List.dropWhile_cons_of_neg (by decide), matchMarkerRest_cons,
        if_pos (by decide)]
      exact hcws
    · have hshape : ws ++ ['+'] ++ c :: rest = ws ++ ('+' :: c :: rest) := by simp
      rw [hshape, dropWhile_append_all isWS ws _ hws,
        List.dropWhile_cons_of_neg (by decide), matchMarkerRest_cons,
        if_pos (by decide)]
      exact hcws
    · have hshape : ws ++ ['o'] ++ c :: rest = ws ++ ('o' :: c :: rest) := by simp
      rw [hshape, dropWhile_append_all isWS ws _ hws,
        List.dropWhile_cons_of_neg (by decide), matchMarkerRest_cons,
        if_neg (by decide), if_pos (by decide)]
      exact hcws
    · have hshape : ws ++ ['O'] ++ c :: rest = ws ++ ('O' :: c :: rest) := by simp
      rw [hshape, dropWhile_append_all isWS ws _ hws,
        List.dropWhile_cons_of_neg (by decide), matchMarkerRest_cons,
        if_neg (by decide), if_pos (by decide)]
      exact hcws
    · rcases ds with _ | ⟨d, ds2⟩
      · exact absurd rfl hne
      · have hd : isDigitChar d = true := hall d (List.mem_cons_self d ds2)
        have hshape : ws ++ (d :: ds2 ++ ['.']) ++ c :: rest =
            ws ++ (d :: (ds2 ++ '.' :: c :: rest)) := by simp
        rw [hshape, dropWhile_append_all isWS ws _ hws,
          List.dropWhile_cons_of_neg (by simp [digit_not_ws d hd]),
          matchMarkerRest_cons, if_neg (digit_not_sym d hd),
          if_neg (digit_not_o d hd), if_pos hd]
        have hdig : List.dropWhile isDigitChar (d :: (ds2 ++ '.' :: c :: rest)) =
            '.' :: c :: rest := by
          have hsh2 : d :: (ds2 ++ '.' :: c :: rest) =
              (d :: ds2) ++ ('.' :: c :: rest) := by simp
          rw [hsh2, dropWhile_append_all isDigitChar (d :: ds2) _ hall,
            List.dropWhile_cons_of_neg (by decide)]
        rw [hdig]
        exact hcws
    · rcases rs with _ | ⟨d, rs2⟩
      · exact absurd rfl hne
      · have hd : isRomanChar d = true := hall d (List.mem_cons_self d rs2)
        have hshape : ws ++ (d :: rs2 ++ ['.']) ++ c :: rest =
            ws ++ (d :: (rs2 ++ '.' :: c :: rest)) := by simp
        rw [hshape, dropWhile_append_all isWS ws _ hws,
          List.dropWhile_cons_of_neg (by simp [roman_not_ws d hd]),
          matchMarkerRest_cons, if_neg (roman_not_sym d hd),
          if_neg (roman_not_o d hd), if_neg (by simp [roman_not_digit d hd]),
          if_pos hd]
        have hrom : List.dropWhile isRomanChar (d :: (rs2 ++ '.' :: c :: rest)) =
            '.' :: c :: rest := by
          have hsh2 : d :: (rs2 ++ '.' :: c :: rest) =
              (d :: rs2) ++ ('.' :: c :: rest) := by simp
          rw [hsh2, dropWhile_append_all isRomanChar (d :: rs2) _ hall,
            List.dropWhile_cons_of_neg (by decide)]
        rw [hrom]
        exact hcws

/-- C3: the list-normalization transform processes its input line by line.
A line whose trailing-trimmed form starts (after optional whitespace) with
a recognized list marker (`*`, `-`, `+`, `o` case-insensitively, a numeral
followed by a dot, or a roman-numeral letter string followed by a dot,
case-insensitively, each followed by whitespace as the source comments) is
passed through unchanged except for trailing-whitespace trimming; a
non-blank non-marker line is trimmed and prefixed with a dash-space
bullet; a fully blank line is preserved as-is; each emitted line carries
the line terminator the source appends.  If the input has no
non-whitespace content, the output is the fixed placeholder instead of the
processed lines; otherwise the output is exactly the processed lines (the
inner placeholder branch of the source is dead code).  The third conjunct
identifies the regex-based recognizer with the specification-level marker
shape. -/
theorem spec_C3_list_normalization (title content line : List Char) :
    (trimL content = [] →
      sectionBody title content =
        "No ".data ++ title.map Char.toLower ++ " provided.\n".data) ∧
    (trimL content ≠ [] →
      sectionBody title content = ((splitLines content).map processLine).flatten) ∧
    (markerTest (trimEndL line) = true ↔ specMarker (trimEndL line)) ∧
    (trimL line = [] → processLine line = line ++ ['\n']) ∧
    (trimL line ≠ [] → markerTest (trimEndL line) = true →
      processLine line = trimEndL line ++ ['\n']) ∧
    (trimL line ≠ [] → markerTest (trimEndL line) = false →
      processLine line = '-' :: ' ' :: (trimL line ++ ['\n'])) ∧
    formatSectionAsBulletedList title content =
      "### ".data ++ title ++ '\n' :: (sectionBody title content ++ ['\n']) := by
  refine ⟨?_, ?_, markerTest_iff_specMarker (trimEndL line), ?_, ?_, ?_, rfl⟩
  · intro h
    simp [sectionBody, h]
  · intro hne
    unfold sectionBody
    rw [if_neg hne]
    have hany : (splitLines content).any (fun l => !(trimL l).isEmpty) = true := by
      rcases exists_nonblank_line content hne with ⟨l, hl, hlne⟩
      refine List.any_eq_true.2 ⟨l, hl, ?_⟩
      simpa [List.isEmpty_iff] using hlne
    rw [if_pos hany]
    simp [normalizeLines]
  · intro h
    simp [processLine, h]
  · intro h1 h2
    simp [processLine, h1, h2]
  · intro h1 h2
    simp [processLine, h1, h2]

/-- C3 witness: the specification example text, where a plain line is
bulleted and an already-bulleted line passes through unchanged. -/
theorem spec_C3_list_normalization_witness :
    sectionBody "Detailed Analysis".data
        "Use event versioning.\n- Already bulleted.\n\nSecond note.".data =
      ((splitLines "Use event versioning.\n- Already bulleted.\n\nSecond note.".data).map
        processLine).flatten ∧
    processLine "- Already bulleted.".data = "- Already bulleted.\n".data ∧
    processLine "Use event versioning.".data = "- Use event versioning.\n".data := by
  obtain ⟨-, h2, -, -, h5, -, -⟩ := spec_C3_list_normalization "Detailed Analysis".data
    "Use event versioning.\n- Already bulleted.\n\nSecond note.".data
    "- Already bulleted.".data
  obtain ⟨-, -, -, -, -, h6, -⟩ := spec_C3_list_normalization "Detailed Analysis".data
    "Use event versioning.\n- Already bulleted.\n\nSecond note.".data
    "Use event versioning.".data
  refine ⟨h2 (by decide), ?_, ?_⟩
  · rw [h5 (by decide) (by decide)]
    decide
  · rw [h6 (by decide) (by decide)]
    decide
